import Mathlib

/-!
Verification of the `brnfk` brainfuck interpreter (`src/main.rs`).

The Rust source is shallowly embedded: bytes and cells (`u8`) are `Nat`
values with wrapping arithmetic written as explicit `% 256`; `Vec<T>` is
`List T`; `Result<T, Error>` is `Except Error T`; the interpreter loop is
given fuel since brainfuck programs need not terminate.  The `usize` data
pointer is a `Nat`; its unguarded decrement `d_ptr -= 1` is modelled with
checked semantics: decrementing at zero is an explicit `ptrUnderflow`
fault (Rust's debug-mode underflow panic).  I/O capabilities are pure:
the input source is the list of bytes it will yield, the output sink is
the list of bytes written so far (a recording sink).
-/

namespace Brnfk

/-- Rust `Command` from `main.rs`: the eight brainfuck instructions; the
two jump variants carry the resolved index of their matching bracket. -/
inductive Command where
  | IncPtr
  | DecPtr
  | Inc
  | Dec
  | Output
  | Input
  | JmpStart (target : Nat)
  | JmpEnd (target : Nat)
deriving DecidableEq, Repr

/-- Rust `Error` from `main.rs`: load-time failures. -/
inductive Error where
  | InvalidCommand (index : Nat) (command : Nat)
  | UnmatchedJump (index : Nat)
deriving DecidableEq, Repr

/-- Rust `Error::set_index`: overwrite the stored index (used by the
loader to patch in the raw byte offset). -/
def Error.setIndex : Error → Nat → Error
  | .InvalidCommand _ c, idx => .InvalidCommand idx c
  | .UnmatchedJump _, idx => .UnmatchedJump idx

/-- Rust `Command::try_from(&u8)`: the fixed byte-to-instruction table.
Any other byte is an `InvalidCommand` carrying index 0 (patched later)
and the offending byte value. -/
def Command.tryFrom (value : Nat) : Except Error Command :=
  if value = 62 then .ok .IncPtr
  else if value = 60 then .ok .DecPtr
  else if value = 43 then .ok .Inc
  else if value = 45 then .ok .Dec
  else if value = 46 then .ok .Output
  else if value = 44 then .ok .Input
  else if value = 91 then .ok (.JmpStart 0)
  else if value = 93 then .ok (.JmpEnd 0)
  else .error (.InvalidCommand 0 value)

/-- Rust `u8::is_ascii_whitespace`: tab, line feed, form feed, carriage
return, space. -/
def isAsciiWhitespace (b : Nat) : Bool :=
  b == 9 || b == 10 || b == 12 || b == 13 || b == 32

/-- Rust `Tape` from `main.rs`: a growable vector of byte cells. -/
structure Tape where
  inner : List Nat
deriving DecidableEq, Repr

/-- Rust `Vec::resize(newLen, 0)` as used by the tape: only ever called
with `newLen` greater than the current length, so it extends with
zeros. -/
def listResize (l : List Nat) (newLen : Nat) : List Nat :=
  l ++ List.replicate (newLen - l.length) 0

/-- The shared guard `if index >= self.inner.len() { self.inner.resize(index + 1, 0); }`
at the top of `Tape::inc`, `Tape::dec` and `Tape::set`. -/
def growFor (l : List Nat) (index : Nat) : List Nat :=
  if index ≥ l.length then listResize l (index + 1) else l

/-- Rust `Tape::inc`: grow to cover `index` if needed, then wrapping-add
1 to the cell (u8 wrap written as `% 256`). -/
def Tape.inc (t : Tape) (index : Nat) : Tape :=
  let inner := growFor t.inner index
  ⟨inner.set index ((inner.getD index 0 + 1) % 256)⟩

/-- Rust `Tape::dec`: grow to cover `index` if needed, then wrapping-sub
1 from the cell (u8 wrap: subtracting 1 is adding 255 mod 256). -/
def Tape.dec (t : Tape) (index : Nat) : Tape :=
  let inner := growFor t.inner index
  ⟨inner.set index ((inner.getD index 0 + 255) % 256)⟩

/-- Rust `Tape::set`: grow to cover `index` if needed, then overwrite
the cell. -/
def Tape.set (t : Tape) (index : Nat) (value : Nat) : Tape :=
  let inner := growFor t.inner index
  ⟨inner.set index value⟩

/-- Rust `Tape::get`, that is `*self.inner.get(index).unwrap_or(&0)`:
out-of-range reads yield 0 and take `&self` only, so storage cannot
change. -/
def Tape.get (t : Tape) (index : Nat) : Nat :=
  t.inner.getD index 0

/-- The back-patch step inside `Program::load`'s `JmpEnd` arm: the
matching position must hold a `JmpStart` (the Rust code declares the
other branch `unreachable!`; here it leaves the list unchanged), whose
target is overwritten with the index of the closing `JmpEnd`. -/
def backpatch (cs : List Command) (matching idx : Nat) : List Command :=
  match cs[matching]? with
  | some (.JmpStart _) => cs.set matching (.JmpStart idx)
  | _ => cs

/-- The scan loop of `Program::load`, over `(byte offset, byte)` pairs,
carrying the pending jump stack (head = most recently pushed) and the
resolved command list built so far.  After the scan a non-empty stack is
an `UnmatchedJump` at the last-pushed position. -/
def loadAux : List (Nat × Nat) → List Nat → List Command → Except Error (List Command)
  | [], jumpStack, commands =>
    match jumpStack with
    | [] => .ok commands
    | unmatched :: _ => .error (.UnmatchedJump unmatched)
  | (bLoc, b) :: rest, jumpStack, commands =>
    if isAsciiWhitespace b then
      loadAux rest jumpStack commands
    else
      match Command.tryFrom b with
      | .error e => .error (e.setIndex bLoc)
      | .ok cmd =>
        match cmd with
        | .JmpStart _ =>
          loadAux rest (commands.length :: jumpStack) (commands ++ [.JmpStart 0])
        | .JmpEnd _ =>
          match jumpStack with
          | [] => .error (.UnmatchedJump commands.length)
          | matching :: restStack =>
            loadAux rest restStack
              (backpatch commands matching commands.length ++ [.JmpEnd matching])
        | c => loadAux rest jumpStack (commands ++ [c])

/-- Rust `Program::load`: enumerate the raw bytes (so error offsets
count whitespace) and run the scan with empty stack and empty command
list. -/
def load (data : List Nat) : Except Error (List Command) :=
  loadAux data.enum [] []

/-- The command list of a successful load (junk `[]` on failure); lets
end-to-end statements avoid an existential over the loaded program. -/
def loadOk (data : List Nat) : List Command :=
  match load data with
  | .ok cs => cs
  | .error _ => []

/-- The mutable state of `Brainfuck::run`: tape, data pointer,
instruction pointer, plus the pure I/O capabilities (remaining input
bytes, recorded output bytes). -/
structure BfState where
  tape : Tape
  dPtr : Nat
  iPtr : Nat
  input : List Nat
  output : List Nat
deriving DecidableEq, Repr

/-- The outcome of one iteration of the `while` loop in
`Brainfuck::run`. -/
inductive StepResult where
  | next (s : BfState)
  | halt (s : BfState)
  | inputFault
  | ptrUnderflow
deriving DecidableEq, Repr

/-- One iteration of `Brainfuck::run`'s loop.  `halt` is the loop guard
`i_ptr < commands.len()` failing.  `inputFault` is the
`.expect("failed to get input")` panic on an exhausted input source: no
byte is written and the state is not carried along.  `ptrUnderflow` is
the checked reading of the unguarded `d_ptr -= 1` at zero.  The jump
arms set `i_ptr` to the stored matching index and `continue` (skipping
the shared `i_ptr += 1`). -/
def step (cs : List Command) (s : BfState) : StepResult :=
  match cs[s.iPtr]? with
  | none => .halt s
  | some c =>
    match c with
    | .IncPtr => .next { s with dPtr := s.dPtr + 1, iPtr := s.iPtr + 1 }
    | .DecPtr =>
      if s.dPtr = 0 then .ptrUnderflow
      else .next { s with dPtr := s.dPtr - 1, iPtr := s.iPtr + 1 }
    | .Inc => .next { s with tape := s.tape.inc s.dPtr, iPtr := s.iPtr + 1 }
    | .Dec => .next { s with tape := s.tape.dec s.dPtr, iPtr := s.iPtr + 1 }
    | .Output => .next { s with output := s.output ++ [s.tape.get s.dPtr], iPtr := s.iPtr + 1 }
    | .Input =>
      match s.input with
      | [] => .inputFault
      | b :: restInput =>
        .next { s with tape := s.tape.set s.dPtr b, input := restInput, iPtr := s.iPtr + 1 }
    | .JmpStart matching =>
      if s.tape.get s.dPtr = 0 then .next { s with iPtr := matching }
      else .next { s with iPtr := s.iPtr + 1 }
    | .JmpEnd matching =>
      if s.tape.get s.dPtr ≠ 0 then .next { s with iPtr := matching }
      else .next { s with iPtr := s.iPtr + 1 }

/-- The observable outcome of a run: the recorded output on normal
termination, or the fault that aborted it.  A fault exposes no tape or
pointer state to the caller (in Rust both faults are panics). -/
inductive RunResult where
  | done (output : List Nat)
  | inputFault
  | ptrUnderflow
  | outOfFuel
deriving DecidableEq, Repr

/-- Fuelled iteration of `step`; `Brainfuck::run` has no step ceiling,
so `outOfFuel` only marks that the chosen fuel was too small. -/
def runAux : Nat → List Command → BfState → RunResult
  | 0, _, _ => .outOfFuel
  | fuel + 1, cs, s =>
    match step cs s with
    | .halt s' => .done s'.output
    | .next s' => runAux fuel cs s'
    | .inputFault => .inputFault
    | .ptrUnderflow => .ptrUnderflow

/-- The initial state of `Brainfuck::run`: fresh tape, both pointers at
0, the given input source, nothing written yet. -/
def initState (input : List Nat) : BfState :=
  ⟨⟨[]⟩, 0, 0, input, []⟩

/-- The byte string of the `hello_world` test in `main.rs`. -/
def helloBytes : List Nat :=
  ("++++++++[>++++[>++>+++>+++>+<<<<-]>+>+>->>+[<]<-]" ++
    ">>.>---.+++++++..+++.>>.<-.<.+++.------.--------.>>+.>++.").data.map Char.toNat

/-- Loop targets are mutually linked: every `JmpStart` points at a
`JmpEnd` pointing back, and vice versa. -/
def Linked (cs : List Command) : Prop :=
  ∀ i t, (cs[i]? = some (Command.JmpStart t) → cs[t]? = some (Command.JmpEnd i)) ∧
    (cs[i]? = some (Command.JmpEnd t) → cs[t]? = some (Command.JmpStart i))

/-- The invariant of the loader scan relating the command list built so
far to the pending jump stack: the stack is strictly decreasing from its
top, every stack entry points at a `JmpStart`, every `JmpStart` not on
the stack is linked to a `JmpEnd` pointing back, and every `JmpEnd` is
linked to an off-stack `JmpStart` pointing back. -/
def LoadInv (cs : List Command) (st : List Nat) : Prop :=
  List.Pairwise (· > ·) st ∧
  (∀ j ∈ st, ∃ u, cs[j]? = some (Command.JmpStart u)) ∧
  (∀ i u, cs[i]? = some (Command.JmpStart u) → i ∉ st →
    cs[u]? = some (Command.JmpEnd i)) ∧
  (∀ i u, cs[i]? = some (Command.JmpEnd u) → u ∉ st ∧ cs[u]? = some (Command.JmpStart i))

lemma length_growFor (l : List Nat) (i : Nat) : (growFor l i).length = max l.length (i + 1) := by
  unfold growFor listResize
  split <;> simp <;> omega

lemma lt_length_growFor (l : List Nat) (i : Nat) : i < (growFor l i).length := by
  rw [length_growFor]; omega

lemma getD_growFor (l : List Nat) (i : Nat) : (growFor l i).getD i 0 = l.getD i 0 := by
  unfold growFor listResize
  split
  · rename_i h
    rw [List.getD_eq_getElem?_getD, List.getD_eq_getElem?_getD, List.getElem?_eq_none h,
      List.getElem?_append_right h, List.getElem?_replicate]
    have hlt : i - l.length < i + 1 - l.length := by omega
    simp [hlt]
  · rfl

lemma getD_set_self (l : List Nat) (i v : Nat) (h : i < l.length) :
    (l.set i v).getD i 0 = v := by
  rw [List.getD_eq_getElem?_getD, List.getElem?_set_self h]
  rfl

lemma tape_set_get_self (t : Tape) (i v : Nat) : (t.set i v).get i = v := by
  unfold Tape.set Tape.get
  exact getD_set_self _ _ _ (lt_length_growFor _ _)

lemma tape_inc_get_self (t : Tape) (i : Nat) : (t.inc i).get i = (t.get i + 1) % 256 := by
  unfold Tape.inc Tape.get
  rw [getD_set_self _ _ _ (lt_length_growFor _ _), getD_growFor]

lemma tape_dec_get_self (t : Tape) (i : Nat) : (t.dec i).get i = (t.get i + 255) % 256 := by
  unfold Tape.dec Tape.get
  rw [getD_set_self _ _ _ (lt_length_growFor _ _), getD_growFor]

lemma lt_of_getElem?_some {α : Type} {l : List α} {i : Nat} {x : α}
    (h : l[i]? = some x) : i < l.length :=
  (List.getElem?_eq_some.1 h).1

lemma getElem?_concat_cases {α : Type} {l : List α} {a x : α} {i : Nat}
    (h : (l ++ [a])[i]? = some x) :
    (i < l.length ∧ l[i]? = some x) ∨ (i = l.length ∧ x = a) := by
  rcases Nat.lt_trichotomy i l.length with hlt | heq | hgt
  · exact Or.inl ⟨hlt, by rwa [List.getElem?_append_left hlt] at h⟩
  · subst heq
    rw [List.getElem?_concat_length] at h
    exact Or.inr ⟨rfl, (Option.some.inj h).symm⟩
  · rw [List.getElem?_eq_none (by simp; omega)] at h
    cases h

lemma getElem?_concat_lt {α : Type} {l : List α} {i : Nat} (a : α) (h : i < l.length) :
    (l ++ [a])[i]? = l[i]? :=
  List.getElem?_append_left h

lemma backpatch_length (cs : List Command) (m idx : Nat) :
    (backpatch cs m idx).length = cs.length := by
  unfold backpatch
  split <;> simp

lemma backpatch_getElem?_self {cs : List Command} {m t₀ : Nat} (idx : Nat)
    (hm : cs[m]? = some (Command.JmpStart t₀)) :
    (backpatch cs m idx)[m]? = some (Command.JmpStart idx) := by
  simp only [backpatch, hm]
  exact List.getElem?_set_self (lt_of_getElem?_some hm)

lemma backpatch_getElem?_ne {cs : List Command} {m i : Nat} (idx : Nat) (hne : m ≠ i) :
    (backpatch cs m idx)[i]? = cs[i]? := by
  unfold backpatch
  split
  · exact List.getElem?_set_ne hne
  · rfl

lemma loadInv_nil : LoadInv [] [] := by
  refine ⟨List.Pairwise.nil, by simp, ?_, ?_⟩ <;> intro i u hi <;> simp at hi

lemma loadInv_push {cs : List Command} {st : List Nat} (h : LoadInv cs st) (c : Command)
    (hs : ∀ u, c ≠ Command.JmpStart u) (he : ∀ u, c ≠ Command.JmpEnd u) :
    LoadInv (cs ++ [c]) st := by
  obtain ⟨hpw, h1, h2, h3⟩ := h
  refine ⟨hpw, ?_, ?_, ?_⟩
  · intro j hj
    obtain ⟨u, hu⟩ := h1 j hj
    exact ⟨u, by rw [getElem?_concat_lt c (lt_of_getElem?_some hu)]; exact hu⟩
  · intro i u hi hnotin
    rcases getElem?_concat_cases hi with ⟨hlt, hget⟩ | ⟨_, hx⟩
    · have ht := h2 i u hget hnotin
      rw [getElem?_concat_lt c (lt_of_getElem?_some ht)]
      exact ht
    · exact absurd hx.symm (hs u)
  · intro i u hi
    rcases getElem?_concat_cases hi with ⟨hlt, hget⟩ | ⟨_, hx⟩
    · obtain ⟨hnotin, ht⟩ := h3 i u hget
      exact ⟨hnotin, by rw [getElem?_concat_lt c (lt_of_getElem?_some ht)]; exact ht⟩
    · exact absurd hx.symm (he u)

lemma loadInv_jmpStart {cs : List Command} {st : List Nat} (h : LoadInv cs st) :
    LoadInv (cs ++ [Command.JmpStart 0]) (cs.length :: st) := by
  obtain ⟨hpw, h1, h2, h3⟩ := h
  refine ⟨?_, ?_, ?_, ?_⟩
  · rw [List.pairwise_cons]
    exact ⟨fun j hj => lt_of_getElem?_some (h1 j hj).choose_spec, hpw⟩
  · intro j hj
    rcases List.mem_cons.1 hj with rfl | hj'
    · exact ⟨0, List.getElem?_concat_length _ _⟩
    · obtain ⟨u, hu⟩ := h1 j hj'
      exact ⟨u, by rw [getElem?_concat_lt _ (lt_of_getElem?_some hu)]; exact hu⟩
  · intro i u hi hnotin
    rcases getElem?_concat_cases hi with ⟨hlt, hget⟩ | ⟨heq, _⟩
    · have hnotin' : i ∉ st := fun hmem => hnotin (List.mem_cons_of_mem _ hmem)
      have ht := h2 i u hget hnotin'
      rw [getElem?_concat_lt _ (lt_of_getElem?_some ht)]
      exact ht
    · exact absurd heq fun heq' => hnotin (heq' ▸ List.mem_cons_self _ _)
  · intro i u hi
    rcases getElem?_concat_cases hi with ⟨hlt, hget⟩ | ⟨_, hx⟩
    · obtain ⟨hnotin, ht⟩ := h3 i u hget
      refine ⟨?_, by rw [getElem?_concat_lt _ (lt_of_getElem?_some ht)]; exact ht⟩
      intro hmem
      rcases List.mem_cons.1 hmem with rfl | h'
      · exact absurd (lt_of_getElem?_some ht) (lt_irrefl _)
      · exact hnotin h'
    · exact Command.noConfusion hx

lemma loadInv_jmpEnd {cs : List Command} {m : Nat} {st : List Nat}
    (h : LoadInv cs (m :: st)) :
    LoadInv (backpatch cs m cs.length ++ [Command.JmpEnd m]) st := by
  obtain ⟨hpw, h1, h2, h3⟩ := h
  obtain ⟨t₀, hm⟩ := h1 m (List.mem_cons_self _ _)
  have hmlt : m < cs.length := lt_of_getElem?_some hm
  have hmst : ∀ j ∈ st, j < m := (List.pairwise_cons.1 hpw).1
  have hmnotin : m ∉ st := fun hj => lt_irrefl m (hmst m hj)
  have hbplen : (backpatch cs m cs.length).length = cs.length := backpatch_length cs m cs.length
  have hbpm : (backpatch cs m cs.length)[m]? = some (Command.JmpStart cs.length) :=
    backpatch_getElem?_self _ hm
  have hlift : ∀ j, j < cs.length → j < (backpatch cs m cs.length).length := by
    intro j hj; rw [hbplen]; exact hj
  refine ⟨(List.pairwise_cons.1 hpw).2, ?_, ?_, ?_⟩
  · intro j hj
    obtain ⟨u, hu⟩ := h1 j (List.mem_cons_of_mem _ hj)
    have hjlt : j < cs.length := lt_of_getElem?_some hu
    rcases eq_or_ne j m with rfl | hne
    · exact ⟨cs.length, by rw [getElem?_concat_lt _ (hlift j hjlt)]; exact hbpm⟩
    · exact ⟨u, by
        rw [getElem?_concat_lt _ (hlift j hjlt), backpatch_getElem?_ne _ (Ne.symm hne)]
        exact hu⟩
  · intro i u hi hnotin
    rcases getElem?_concat_cases hi with ⟨hlt, hget⟩ | ⟨heq, hx⟩
    · rcases eq_or_ne i m with rfl | hne
      · rw [hbpm] at hget
        obtain rfl : cs.length = u := Command.JmpStart.inj (Option.some.inj hget)
        have hcat := List.getElem?_concat_length (backpatch cs i cs.length) (Command.JmpEnd i)
        rw [hbplen] at hcat
        exact hcat
      · have hget' : cs[i]? = some (Command.JmpStart u) := by
          rw [← backpatch_getElem?_ne cs.length (Ne.symm hne)]
          exact hget
        have hnotinfull : i ∉ m :: st := by
          intro hmem
          rcases List.mem_cons.1 hmem with rfl | h'
          · exact hne rfl
          · exact hnotin h'
        have ht := h2 i u hget' hnotinfull
        have hune : m ≠ u := by
          rintro rfl
          rw [hm] at ht
          exact Command.noConfusion (Option.some.inj ht)
        rw [getElem?_concat_lt _ (hlift u (lt_of_getElem?_some ht)),
          backpatch_getElem?_ne _ hune]
        exact ht
    · exact Command.noConfusion hx
  · intro i u hi
    rcases getElem?_concat_cases hi with ⟨hlt, hget⟩ | ⟨heq, hx⟩
    · have hne : m ≠ i := by
        rintro rfl
        rw [hbpm] at hget
        exact Command.noConfusion (Option.some.inj hget)
      have hget' : cs[i]? = some (Command.JmpEnd u) := by
        rw [← backpatch_getElem?_ne cs.length hne]
        exact hget
      obtain ⟨hnotin, ht⟩ := h3 i u hget'
      have hust : u ∉ st := fun h' => hnotin (List.mem_cons_of_mem _ h')
      have hum : u ≠ m := fun h' => hnotin (h' ▸ List.mem_cons_self _ _)
      refine ⟨hust, ?_⟩
      rw [getElem?_concat_lt _ (hlift u (lt_of_getElem?_some ht)),
        backpatch_getElem?_ne _ (Ne.symm hum)]
      exact ht
    · obtain rfl : u = m := Command.JmpEnd.inj hx
      subst heq
      refine ⟨hmnotin, ?_⟩
      rw [getElem?_concat_lt _ (hlift u hmlt), hbpm, hbplen]

lemma linked_of_loadInv {cs : List Command} (h : LoadInv cs []) : Linked cs := by
  obtain ⟨_, _, h2, h3⟩ := h
  intro i t
  exact ⟨fun hi => h2 i t hi (List.not_mem_nil _), fun hi => (h3 i t hi).2⟩

lemma loadAux_ok_linked :
    ∀ (l : List (Nat × Nat)) (st : List Nat) (cs : List Command), LoadInv cs st →
      ∀ cs', loadAux l st cs = .ok cs' → Linked cs' := by
  intro l
  induction l with
  | nil =>
    intro st cs hinv cs' hok
    cases st with
    | nil =>
      obtain rfl : cs = cs' := by simpa [loadAux] using hok
      exact linked_of_loadInv hinv
    | cons m st' => simp [loadAux] at hok
  | cons p rest ih =>
    obtain ⟨bLoc, b⟩ := p
    intro st cs hinv cs' hok
    cases hws : isAsciiWhitespace b with
    | true =>
      simp only [loadAux] at hok
      rw [if_pos hws] at hok
      exact ih st cs hinv cs' hok
    | false =>
      simp only [loadAux] at hok
      rw [if_neg (by simp [hws])] at hok
      cases htf : Command.tryFrom b with
      | error e => simp [htf] at hok
      | ok c =>
        cases c with
        | JmpStart u =>
          simp only [htf] at hok
          exact ih _ _ (loadInv_jmpStart hinv) cs' hok
        | JmpEnd u =>
          cases st with
          | nil => simp [htf] at hok
          | cons m st' =>
            simp only [htf] at hok
            exact ih _ _ (loadInv_jmpEnd hinv) cs' hok
        | IncPtr =>
          simp only [htf] at hok
          exact ih _ _ (loadInv_push hinv _ (fun _ h => Command.noConfusion h)
            (fun _ h => Command.noConfusion h)) cs' hok
        | DecPtr =>
          simp only [htf] at hok
          exact ih _ _ (loadInv_push hinv _ (fun _ h => Command.noConfusion h)
            (fun _ h => Command.noConfusion h)) cs' hok
        | Inc =>
          simp only [htf] at hok
          exact ih _ _ (loadInv_push hinv _ (fun _ h => Command.noConfusion h)
            (fun _ h => Command.noConfusion h)) cs' hok
        | Dec =>
          simp only [htf] at hok
          exact ih _ _ (loadInv_push hinv _ (fun _ h => Command.noConfusion h)
            (fun _ h => Command.noConfusion h)) cs' hok
        | Output =>
          simp only [htf] at hok
          exact ih _ _ (loadInv_push hinv _ (fun _ h => Command.noConfusion h)
            (fun _ h => Command.noConfusion h)) cs' hok
        | Input =>
          simp only [htf] at hok
          exact ih _ _ (loadInv_push hinv _ (fun _ h => Command.noConfusion h)
            (fun _ h => Command.noConfusion h)) cs' hok

lemma loadAux_all_ws :
    ∀ (data : List Nat), (∀ b ∈ data, isAsciiWhitespace b = true) →
      ∀ (n : Nat) (st : List Nat) (cs : List Command),
        loadAux (List.enumFrom n data) st cs = loadAux [] st cs := by
  intro data
  induction data with
  | nil => intro _ n st cs; rfl
  | cons b rest ih =>
    intro h n st cs
    rw [List.enumFrom_cons]
    have hb : isAsciiWhitespace b = true := h b (List.mem_cons_self _ _)
    have hstep : loadAux ((n, b) :: List.enumFrom (n + 1) rest) st cs =
        loadAux (List.enumFrom (n + 1) rest) st cs := by
      simp only [loadAux]
      rw [if_pos hb]
    rw [hstep]
    exact ih (fun x hx => h x (List.mem_cons_of_mem _ hx)) (n + 1) st cs

lemma runAux_input_irrel {cs : List Command} (hni : Command.Input ∉ cs) :
    ∀ (n : Nat) (tape : Tape) (d i : Nat) (out inp : List Nat),
      runAux n cs ⟨tape, d, i, inp, out⟩ = runAux n cs ⟨tape, d, i, [], out⟩ := by
  intro n
  induction n with
  | zero => intros; rfl
  | succ n ih =>
    intro tape d i out inp
    cases hc : cs[i]? with
    | none => simp [runAux, step, hc]
    | some c =>
      cases c with
      | Input => exact absurd (List.getElem?_mem hc) hni
      | IncPtr =>
        simp only [runAux, step, hc]
        exact ih tape (d + 1) (i + 1) out inp
      | DecPtr =>
        rcases Nat.eq_zero_or_pos d with rfl | hd
        · simp [runAux, step, hc]
        · have hd' : ¬d = 0 := Nat.pos_iff_ne_zero.1 hd
          simp only [runAux, step, hc, hd', if_false, if_neg hd']
          exact ih tape (d - 1) (i + 1) out inp
      | Inc =>
        simp only [runAux, step, hc]
        exact ih (tape.inc d) d (i + 1) out inp
      | Dec =>
        simp only [runAux, step, hc]
        exact ih (tape.dec d) d (i + 1) out inp
      | Output =>
        simp only [runAux, step, hc]
        exact ih tape d (i + 1) (out ++ [tape.get d]) inp
      | JmpStart u =>
        by_cases hz : tape.get d = 0
        · simp only [runAux, step, hc, if_pos hz]
          exact ih tape d u out inp
        · simp only [runAux, step, hc, if_neg hz]
          exact ih tape d (i + 1) out inp
      | JmpEnd u =>
        by_cases hz : tape.get d = 0
        · have hz' : ¬tape.get d ≠ 0 := fun h => h hz
          simp only [runAux, step, hc, if_neg hz']
          exact ih tape d (i + 1) out inp
        · simp only [runAux, step, hc, if_pos hz]
          exact ih tape d u out inp

lemma tryFrom_invalid {b : Nat} (h : b ∉ [62, 60, 43, 45, 46, 44, 91, 93]) :
    Command.tryFrom b = .error (.InvalidCommand 0 b) := by
  simp only [List.mem_cons, List.not_mem_nil, or_false, not_or] at h
  obtain ⟨h1, h2, h3, h4, h5, h6, h7, h8⟩ := h
  simp [Command.tryFrom, h1, h2, h3, h4, h5, h6, h7, h8]

/-- C1 (amended): executing `JmpStart t` with the current cell 0 sets the
next instruction pointer to `t` itself (the matching `JmpEnd`'s index),
not `t + 1`, and to the current pointer plus 1 otherwise; symmetrically
for `JmpEnd t` with a nonzero cell.  When the two brackets are mutually
linked, the partner then re-tests the unchanged cell and falls through,
so after that extra step control is at `t + 1`. -/
theorem jmp_step_targets (cs : List Command) (s : BfState) (t : Nat) :
    (cs[s.iPtr]? = some (Command.JmpStart t) →
      step cs s = .next { s with iPtr := if s.tape.get s.dPtr = 0 then t else s.iPtr + 1 }) ∧
    (cs[s.iPtr]? = some (Command.JmpEnd t) →
      step cs s = .next { s with iPtr := if s.tape.get s.dPtr ≠ 0 then t else s.iPtr + 1 }) ∧
    (cs[s.iPtr]? = some (Command.JmpStart t) → cs[t]? = some (Command.JmpEnd s.iPtr) →
      s.tape.get s.dPtr = 0 →
      step cs s = .next { s with iPtr := t } ∧
      step cs { s with iPtr := t } = .next { s with iPtr := t + 1 }) ∧
    (cs[s.iPtr]? = some (Command.JmpEnd t) → cs[t]? = some (Command.JmpStart s.iPtr) →
      s.tape.get s.dPtr ≠ 0 →
      step cs s = .next { s with iPtr := t } ∧
      step cs { s with iPtr := t } = .next { s with iPtr := t + 1 }) := by
  refine ⟨?_, ?_, ?_, ?_⟩
  · intro hc
    by_cases hz : s.tape.get s.dPtr = 0
    · simp only [step, hc, if_pos hz]
    · simp only [step, hc, if_neg hz]
  · intro hc
    by_cases hz : s.tape.get s.dPtr ≠ 0
    · simp only [step, hc, if_pos hz]
    · simp only [step, hc, if_neg hz]
  · intro h1 h2 hz
    refine ⟨by simp only [step, h1, if_pos hz], ?_⟩
    have hnn : ¬s.tape.get s.dPtr ≠ 0 := fun h => h hz
    simp only [step, h2, if_neg hnn]
  · intro h1 h2 hz
    refine ⟨by simp only [step, h1, if_pos hz], ?_⟩
    simp only [step, h2, if_neg hz]

/-- C1 counterexample: in the program `[]` (which loads to
`[JmpStart 1, JmpEnd 0]`), executing `JmpStart 1` on a zero cell sets
the next instruction pointer to 1, the target itself — not to
`target + 1 = 2` as the claim states. -/
theorem loopStart_step_counterexample :
    step [Command.JmpStart 1, Command.JmpEnd 0] (initState []) =
      .next ⟨⟨[]⟩, 0, 1, [], []⟩ ∧
    step [Command.JmpStart 1, Command.JmpEnd 0] (initState []) ≠
      .next ⟨⟨[]⟩, 0, 2, [], []⟩ := by
  exact ⟨by rfl, by decide⟩

/-- C1 witness: the amended per-step rule evaluated on the loaded
program `[]` at its initial state. -/
theorem jmp_step_targets_witness :
    step [Command.JmpStart 1, Command.JmpEnd 0] (initState []) =
      .next { initState [] with
        iPtr := if (initState []).tape.get (initState []).dPtr = 0 then 1
          else (initState []).iPtr + 1 } :=
  (jmp_step_targets [Command.JmpStart 1, Command.JmpEnd 0] (initState []) 1).1 rfl

set_option maxRecDepth 8000 in
/-- C2: loading the hello-world byte string succeeds, and running the
resulting program with any input source (the program contains no `Input`
instruction) terminates with exactly the output bytes of
`"Hello World!\n"`. -/
theorem hello_world_run (inp : List Nat) :
    load helloBytes = .ok (loadOk helloBytes) ∧
    runAux 1200 (loadOk helloBytes) (initState inp) =
      .done ("Hello World!\n".data.map Char.toNat) := by
  refine ⟨rfl, ?_⟩
  have hni : Command.Input ∉ loadOk helloBytes := by decide
  have h := runAux_input_irrel hni 1200 ⟨[]⟩ 0 0 [] inp
  exact h.trans (by rfl)

/-- C3: every successfully loaded program has mutually linked loop
targets, and `[[]]` in particular loads with the outer `JmpStart` at
index 0 targeting the outer `JmpEnd` at index 3 and the inner pair at
indices 1 and 2 targeting each other. -/
theorem load_mutually_linked :
    (∀ (data : List Nat) (cs : List Command), load data = .ok cs → Linked cs) ∧
    load [91, 91, 93, 93] =
      .ok [Command.JmpStart 3, Command.JmpStart 2, Command.JmpEnd 1, Command.JmpEnd 0] := by
  refine ⟨?_, rfl⟩
  intro data cs h
  exact loadAux_ok_linked data.enum [] [] loadInv_nil cs h

/-- C3 witness: mutual linking evaluated on the program loaded from
`[[]]`. -/
theorem load_mutually_linked_witness :
    Linked [Command.JmpStart 3, Command.JmpStart 2, Command.JmpEnd 1, Command.JmpEnd 0] :=
  load_mutually_linked.1 [91, 91, 93, 93] _ rfl

/-- C4: an `UnmatchedJump` error carries a resolved-instruction index: a
`JmpEnd` scanned on an empty pending stack reports the index this
`JmpEnd` would occupy (`commands.length`, hence 0 for the one-byte input
`]`), and a non-empty stack after the scan reports its most recently
pushed entry, which points at a `JmpStart` of the scanned commands. -/
theorem unmatchedJump_index (rest : List (Nat × Nat)) (bLoc m : Nat)
    (st : List Nat) (cs : List Command) :
    loadAux ((bLoc, 93) :: rest) [] cs = .error (.UnmatchedJump cs.length) ∧
    ((∀ j ∈ m :: st, ∃ u, cs[j]? = some (Command.JmpStart u)) →
      loadAux [] (m :: st) cs = .error (.UnmatchedJump m) ∧
      ∃ u, cs[m]? = some (Command.JmpStart u)) ∧
    load [93] = .error (.UnmatchedJump 0) := by
  refine ⟨rfl, ?_, rfl⟩
  intro h
  exact ⟨rfl, h m (List.mem_cons_self _ _)⟩

/-- C4 witness: the end-of-scan case evaluated with one pending
`JmpStart` at index 0. -/
theorem unmatchedJump_index_witness :
    loadAux [] [0] [Command.JmpStart 0] = .error (.UnmatchedJump 0) :=
  ((unmatchedJump_index [] 0 0 [] [Command.JmpStart 0]).2.1 (by
    intro j hj
    rcases List.mem_singleton.1 hj with rfl
    exact ⟨0, rfl⟩)).1

/-- C5: a non-whitespace byte outside the eight-command alphabet fails
loading with `InvalidCommand` carrying the raw byte offset (whitespace
counted, as the `[32, b]` instance shows) and the byte value; the
single-byte input `b` fails at index 0. -/
theorem invalidCommand_raw_offset (b bLoc : Nat) (rest : List (Nat × Nat))
    (st : List Nat) (cs : List Command) (hws : isAsciiWhitespace b = false)
    (halpha : b ∉ [62, 60, 43, 45, 46, 44, 91, 93]) :
    loadAux ((bLoc, b) :: rest) st cs = .error (.InvalidCommand bLoc b) ∧
    load [b] = .error (.InvalidCommand 0 b) ∧
    load [32, b] = .error (.InvalidCommand 1 b) := by
  have key : ∀ (bl : Nat) (r : List (Nat × Nat)) (s : List Nat) (c : List Command),
      loadAux ((bl, b) :: r) s c = .error (.InvalidCommand bl b) := by
    intro bl r s c
    simp only [loadAux]
    rw [if_neg (by simp [hws]), tryFrom_invalid halpha]
    rfl
  exact ⟨key bLoc rest st cs, key 0 [] [] [], key 1 [] [] []⟩

/-- C5 witness: the letter `a` (byte 97) evaluated bare, alone, and
after a space. -/
theorem invalidCommand_raw_offset_witness :
    load [97] = .error (.InvalidCommand 0 97) ∧
    load [32, 97] = .error (.InvalidCommand 1 97) :=
  (invalidCommand_raw_offset 97 0 [] [] [] (by decide) (by decide)).2

/-- C6: writing `v` at index `i` then reading index `i` returns `v`;
reading any index at or beyond the storage length returns 0 (`get`
takes the tape immutably, so it cannot grow storage); writing index `i`
into an empty tape grows storage to exactly `i + 1`, and reading one
past that written index still returns 0. -/
theorem tape_set_get_roundtrip (t : Tape) (i v j : Nat) (hj : t.inner.length ≤ j) :
    (t.set i v).get i = v ∧ t.get j = 0 ∧
    ((Tape.mk []).set i v).inner.length = i + 1 ∧
    ((Tape.mk []).set i v).get (i + 1) = 0 := by
  have hlen : ((Tape.mk []).set i v).inner.length = i + 1 := by
    show ((growFor ([] : List Nat) i).set i v).length = i + 1
    rw [List.length_set, length_growFor]
    simp
  refine ⟨tape_set_get_self t i v, ?_, hlen, ?_⟩
  · unfold Tape.get
    rw [List.getD_eq_getElem?_getD, List.getElem?_eq_none hj]
    rfl
  · show ((Tape.mk []).set i v).inner.getD (i + 1) 0 = 0
    rw [List.getD_eq_getElem?_getD, List.getElem?_eq_none hlen.le]
    rfl

/-- C6 witness: the round-trip evaluated at index 2, value 7, probe
index 5 on the empty tape. -/
theorem tape_set_get_roundtrip_witness :
    ((Tape.mk []).set 2 7).get 2 = 7 ∧ (Tape.mk []).get 5 = 0 ∧
    ((Tape.mk []).set 2 7).inner.length = 2 + 1 ∧
    ((Tape.mk []).set 2 7).get (2 + 1) = 0 :=
  tape_set_get_roundtrip (Tape.mk []) 2 7 5 (by decide)

/-- C7: `Tape.inc` and `Tape.dec` change the addressed cell by plus and
minus 1 modulo 256 with no overflow fault — in particular 255
increments to 0 and 0 decrements to 255 (also on a never-written
cell). -/
theorem tape_wrapping_arith (t : Tape) (i : Nat) :
    ((t.inc i).get i = (t.get i + 1) % 256 ∧ (t.dec i).get i = (t.get i + 255) % 256) ∧
    ((Tape.mk [255]).inc 0).get 0 = 0 ∧ ((Tape.mk [0]).dec 0).get 0 = 255 ∧
    ((Tape.mk []).dec 0).get 0 = 255 :=
  ⟨⟨tape_inc_get_self t i, tape_dec_get_self t i⟩, by decide, by decide, by decide⟩

/-- C8: executing `Input` with the input source exhausted makes the step
an `inputFault`, so the whole run aborts as `inputFault` — no byte is
written to the tape, no further instruction executes, and the result
carries no tape or pointer state. -/
theorem input_exhaustion_aborts (cs : List Command) (s : BfState) (n : Nat)
    (hc : cs[s.iPtr]? = some Command.Input) (hin : s.input = []) :
    step cs s = .inputFault ∧ runAux (n + 1) cs s = .inputFault := by
  have h1 : step cs s = .inputFault := by
    simp only [step, hc, hin]
  exact ⟨h1, by simp only [runAux, h1]⟩

/-- C8 witness: the one-instruction program `,` with empty input. -/
theorem input_exhaustion_aborts_witness :
    step [Command.Input] (initState []) = .inputFault ∧
    runAux 1 [Command.Input] (initState []) = .inputFault :=
  input_exhaustion_aborts [Command.Input] (initState []) 0 rfl rfl

/-- C9: `MovePtrLeft` decrements the data pointer by a raw unsigned
subtraction embedded with checked semantics: with a nonzero data pointer
the step is safe and yields `dPtr - 1`, and with the data pointer at 0
it is an arithmetic underflow fault. -/
theorem decPtr_unguarded_underflow (cs : List Command) (s : BfState)
    (hc : cs[s.iPtr]? = some Command.DecPtr) :
    (s.dPtr ≠ 0 → step cs s = .next { s with dPtr := s.dPtr - 1, iPtr := s.iPtr + 1 }) ∧
    (s.dPtr = 0 → step cs s = .ptrUnderflow) := by
  constructor
  · intro h
    simp only [step, hc, if_neg h]
  · intro h
    simp only [step, hc, if_pos h]

/-- C9 witness: the one-instruction program `<` stepped with the data
pointer at 1 and at 0. -/
theorem decPtr_unguarded_underflow_witness :
    step [Command.DecPtr] ⟨⟨[]⟩, 1, 0, [], []⟩ = .next ⟨⟨[]⟩, 0, 1, [], []⟩ ∧
    step [Command.DecPtr] ⟨⟨[]⟩, 0, 0, [], []⟩ = .ptrUnderflow :=
  ⟨(decPtr_unguarded_underflow [Command.DecPtr] ⟨⟨[]⟩, 1, 0, [], []⟩ rfl).1 (by decide),
   (decPtr_unguarded_underflow [Command.DecPtr] ⟨⟨[]⟩, 0, 0, [], []⟩ rfl).2 rfl⟩

/-- C10: the loader's whitespace is exactly the five ASCII whitespace
bytes 9, 10, 12, 13 and 32: any input made solely of them loads to the
empty program, while vertical tab (11) — outside both the whitespace set
and the command alphabet — fails with `InvalidCommand`. -/
theorem whitespace_exactly_five :
    (∀ b, isAsciiWhitespace b = true ↔ (b = 9 ∨ b = 10 ∨ b = 12 ∨ b = 13 ∨ b = 32)) ∧
    (∀ data : List Nat, (∀ b ∈ data, isAsciiWhitespace b = true) → load data = .ok []) ∧
    load [11] = .error (.InvalidCommand 0 11) ∧
    load [9, 10, 12, 13, 32] = .ok [] := by
  refine ⟨?_, ?_, rfl, rfl⟩
  · intro b
    simp [isAsciiWhitespace, or_assoc]
  · intro data h
    show loadAux (List.enumFrom 0 data) [] [] = .ok []
    rw [loadAux_all_ws data h 0 [] []]
    rfl

/-- C10 witness: a mixed all-whitespace input loads to the empty
program. -/
theorem whitespace_exactly_five_witness :
    load [9, 32, 10] = .ok [] :=
  whitespace_exactly_five.2.1 [9, 32, 10] (by decide)

end Brnfk
